import Mathlib

/-!
Verification of the postgres-backed datastore (`src/lib/src/pg/datastore.rs`):
the lowering of the graph-query algebra to SQL fragments, the savepoint-wrapped
create operations, the metadata upsert, and the row-decoding loops.

UUIDs are embedded as `Nat`, timestamps as `Nat`, type labels and JSON values
as `String`: the code treats all of them as opaque scalar carriers.
-/

namespace IndraPg

/-- UUIDs are opaque scalars to this code; embed them as naturals. -/
abbrev Uuid := Nat

/-- Timestamps (`DateTime<Utc>`) are opaque ordered scalars; embed as naturals. -/
abbrev Timestamp := Nat

/-- One bound SQL parameter, as pushed into the `params: Vec<Box<ToSql>>`
vectors of `vertex_query_to_sql` / `edge_query_to_sql`. -/
inductive SqlParam where
  | uuid (u : Uuid)
  | str (s : String)
  | int (i : Int)
  | time (t : Timestamp)
  deriving Repr, DecidableEq

/-- `models::EdgeKey`: the triple identifying an edge. -/
structure EdgeKey where
  outbound_id : Uuid
  t : String
  inbound_id : Uuid
  deriving Repr, DecidableEq

/-- `EdgeDirection` from the models crate (called `converter` in the query types). -/
inductive EdgeDirection where
  | Outbound
  | Inbound
  deriving Repr, DecidableEq

mutual
/-- `VertexQuery` from `src/lib/src/pg/datastore.rs` line 96 onward:
`All { start_id, limit }`, `Vertices { ids }`, `Pipe { edge_query, converter, limit }`. -/
inductive VertexQuery where
  | All (start_id : Option Uuid) (limit : Nat)
  | Vertices (ids : List Uuid)
  | Pipe (edge_query : EdgeQuery) (converter : EdgeDirection) (limit : Nat)

/-- `EdgeQuery`: `Edges { keys }` and
`Pipe { vertex_query, converter, type_filter, high_filter, low_filter, limit }`. -/
inductive EdgeQuery where
  | Edges (keys : List EdgeKey)
  | Pipe (vertex_query : VertexQuery) (converter : EdgeDirection)
      (type_filter : Option String) (high_filter : Option Timestamp)
      (low_filter : Option Timestamp) (limit : Nat)
end

/-- One fragment pushed into the `CTEQueryBuilder`: the template string with
`%t` / `%p` placeholders, the CTE name (`""` for a tail fragment), and the
bound parameters, exactly the three arguments of `sql_query_builder.push`. -/
structure Fragment where
  template : String
  cteName : String
  params : List SqlParam
  deriving Repr, DecidableEq

mutual
/-- `PostgresTransaction::vertex_query_to_sql` (datastore.rs lines 95-147),
in the equivalent functional shape: the list of fragments pushed into the
builder, in push order. -/
def vertex_query_to_sql : VertexQuery → List Fragment
  | .All none limit =>
      [⟨"SELECT id, type FROM %t ORDER BY id LIMIT %p", "vertices",
        [.int (Int.ofNat limit)]⟩]
  | .All (some start_id) limit =>
      [⟨"SELECT id, type FROM %t WHERE id > %p ORDER BY id LIMIT %p", "vertices",
        [.uuid start_id, .int (Int.ofNat limit)]⟩]
  | .Vertices ids =>
      [⟨"SELECT id, type FROM %t WHERE id IN ("
          ++ String.intercalate ", " (ids.map (fun _ => "%p"))
          ++ ") ORDER BY id", "vertices",
        ids.map (fun id => .uuid id)⟩]
  | .Pipe edge_query converter limit =>
      let template :=
        match converter with
        | .Outbound =>
            "SELECT id, type FROM vertices WHERE id IN (SELECT outbound_id FROM %t) ORDER BY id LIMIT %p"
        | .Inbound =>
            "SELECT id, type FROM vertices WHERE id IN (SELECT inbound_id FROM %t) ORDER BY id LIMIT %p"
      edge_query_to_sql edge_query ++ [⟨template, "", [.int (Int.ofNat limit)]⟩]

/-- `PostgresTransaction::edge_query_to_sql` (datastore.rs lines 149-223),
in the same functional shape. -/
def edge_query_to_sql : EdgeQuery → List Fragment
  | .Edges keys =>
      [⟨"SELECT id, outbound_id, type, inbound_id, update_timestamp FROM %t WHERE (outbound_id, type, inbound_id) IN ("
          ++ String.intercalate ", " (keys.map (fun _ => "(%p, %p, %p)"))
          ++ ")", "edges",
        keys.flatMap (fun key => [.uuid key.outbound_id, .str key.t, .uuid key.inbound_id])⟩]
  | .Pipe vertex_query converter type_filter high_filter low_filter limit =>
      let typeClauses : List String :=
        match type_filter with | some _ => ["type = %p"] | none => []
      let typeParams : List SqlParam :=
        match type_filter with | some tf => [.str tf] | none => []
      let highClauses : List String :=
        match high_filter with | some _ => ["update_timestamp <= %p"] | none => []
      let highParams : List SqlParam :=
        match high_filter with | some hf => [.time hf] | none => []
      let lowClauses : List String :=
        match low_filter with | some _ => ["update_timestamp >= %p"] | none => []
      let lowParams : List SqlParam :=
        match low_filter with | some lf => [.time lf] | none => []
      let params := typeParams ++ highParams ++ lowParams ++ [.int (Int.ofNat limit)]
      let where_clause := String.intercalate " AND " (typeClauses ++ highClauses ++ lowClauses)
      let template :=
        match converter, where_clause.length with
        | .Outbound, 0 =>
            "SELECT id, outbound_id, type, inbound_id, update_timestamp FROM edges WHERE outbound_id IN (SELECT id FROM %t) ORDER BY update_timestamp DESC LIMIT %p"
        | .Outbound, _ =>
            "SELECT id, outbound_id, type, inbound_id, update_timestamp FROM edges WHERE outbound_id IN (SELECT id FROM %t) AND "
              ++ where_clause ++ " ORDER BY update_timestamp DESC LIMIT %p"
        | .Inbound, 0 =>
            "SELECT id, outbound_id, type, inbound_id, update_timestamp FROM edges WHERE inbound_id IN (SELECT id FROM %t) ORDER BY update_timestamp DESC LIMIT %p"
        | .Inbound, _ =>
            "SELECT id, outbound_id, type, inbound_id, update_timestamp FROM edges WHERE inbound_id IN (SELECT id FROM %t) AND "
              ++ where_clause ++ " ORDER BY update_timestamp DESC LIMIT %p"
      vertex_query_to_sql vertex_query ++ [⟨template, "", params⟩]
end

/-- One row of the `edges` table from the schema contract:
surrogate `id`, the key triple, and `update_timestamp`. -/
structure EdgeRow where
  id : Uuid
  outbound_id : Uuid
  t : String
  inbound_id : Uuid
  update_timestamp : Timestamp
  deriving Repr, DecidableEq

/-- Whether a row of the `edges` table matches an edge key on the unique triple
(`outbound_id`, `type`, `inbound_id`), the target of the
`edges_outbound_id_type_inbound_id_ukey` constraint. -/
def edgeKeyMatches (key : EdgeKey) (r : EdgeRow) : Bool :=
  r.outbound_id == key.outbound_id && r.t == key.t && r.inbound_id == key.inbound_id

/-- The relational state touched by the create operations: the `vertices` and
`edges` tables of the schema contract. -/
structure DbState where
  vertices : List (Uuid × String)
  edges : List EdgeRow
  deriving Repr, DecidableEq

/-- Modelled from the spec: the database's execution of the plain
`INSERT INTO vertices (id, type) VALUES ($1, $2)` issued by `create_vertex`;
it fails on a unique-constraint violation of the primary key `id` (the RDBMS
is outside src/). -/
def insertVertexSql (st : DbState) (id : Uuid) (t : String) : Except String DbState :=
  if st.vertices.any (fun v => v.1 == id) then
    .error "duplicate key value violates unique constraint"
  else
    .ok { st with vertices := st.vertices ++ [(id, t)] }

/-- Modelled from the spec: the database's execution of the upsert issued by
`create_edge` (`INSERT INTO edges ... VALUES ($1, $2, $3, $4,
CLOCK_TIMESTAMP()) ON CONFLICT ON CONSTRAINT
edges_outbound_id_type_inbound_id_ukey DO UPDATE SET
update_timestamp=CLOCK_TIMESTAMP()`). `now` stands for the server's
`CLOCK_TIMESTAMP()` and `newId` for the freshly generated surrogate UUID.
The statement fails when a foreign-key endpoint vertex is missing (schema
contract); on a key conflict it refreshes `update_timestamp` of the existing
row; otherwise it inserts a new row. The `DO UPDATE` action (refresh the
timestamp of every row matching the key) is `refreshEdges`. -/
def refreshEdges (edges : List EdgeRow) (key : EdgeKey) (now : Timestamp) : List EdgeRow :=
  edges.map fun r => if edgeKeyMatches key r then { r with update_timestamp := now } else r

/-- Modelled from the spec: see `refreshEdges`; this is the whole upsert
statement issued by `create_edge`. -/
def upsertEdgeSql (st : DbState) (newId : Uuid) (key : EdgeKey) (now : Timestamp) :
    Except String DbState :=
  if !(st.vertices.any (fun v => v.1 == key.outbound_id))
      || !(st.vertices.any (fun v => v.1 == key.inbound_id)) then
    .error "violates foreign key constraint"
  else if st.edges.any (edgeKeyMatches key) then
    .ok { st with edges := refreshEdges st.edges key now }
  else
    .ok { st with edges := st.edges ++ [⟨newId, key.outbound_id, key.t, key.inbound_id, now⟩] }

/-- Modelled from the spec: a savepoint scope. Running `body` inside a
savepoint keeps the body's new state and reports `true` when the body
succeeds (`set_commit`), and restores the saved state and reports `false`
when the body fails (`set_rollback`); the outer transaction survives either
way. -/
def withSavepoint (st : DbState) (body : DbState → Except String DbState) :
    DbState × Bool :=
  match body st with
  | .ok st2 => (st2, true)
  | .error _ => (st, false)

/-- `PostgresTransaction::create_vertex` (datastore.rs lines 227-244): run the
vertex insert inside a savepoint; commit the savepoint and return `Ok(true)`
when the insert succeeds, roll the savepoint back and return `Ok(false)` when
it fails. -/
def create_vertex (st : DbState) (id : Uuid) (t : String) :
    DbState × Except String Bool :=
  let r := withSavepoint st (fun s => insertVertexSql s id t)
  (r.1, .ok r.2)

/-- `PostgresTransaction::create_edge` (datastore.rs lines 288-312): generate
a fresh surrogate UUID (`newId`), run the upsert inside a savepoint; commit
and return `Ok(true)` on success, roll back and return `Ok(false)` on
failure. -/
def create_edge (st : DbState) (newId : Uuid) (key : EdgeKey) (now : Timestamp) :
    DbState × Except String Bool :=
  let r := withSavepoint st (fun s => upsertEdgeSql s newId key now)
  (r.1, .ok r.2)

/-- The state after a sequence of `create_edge` calls for one key, each call
supplying its freshly generated surrogate UUID and the server time of its
upsert. -/
def create_edge_seq (st : DbState) (key : EdgeKey) (calls : List (Uuid × Timestamp)) :
    DbState :=
  calls.foldl (fun s c => (create_edge s c.1 key c.2).1) st

/-- Stated from the claim (C5): the tail fragment that `VertexQuery::Pipe`
lowering should push: select id and type from the physical `vertices` table
where `id` is in the projection of the chosen endpoint column from the prior
CTE, ordered by `id` ascending, capped by the limit parameter. -/
def vertexPipeFragmentSpec (converter : EdgeDirection) (limit : Nat) : Fragment :=
  let endpoint := match converter with
    | .Outbound => "outbound_id"
    | .Inbound => "inbound_id"
  ⟨"SELECT id, type FROM vertices WHERE id IN (SELECT " ++ endpoint
      ++ " FROM %t) ORDER BY id LIMIT %p", "", [.int (Int.ofNat limit)]⟩

/-- Stated from the claim (C4): the WHERE-clause conditions present exactly
when the corresponding filter is present, in the order type, high, low. -/
def edgePipeClausesSpec (type_filter : Option String)
    (high_filter low_filter : Option Timestamp) : List String :=
  (if type_filter.isSome then ["type = %p"] else [])
    ++ (if high_filter.isSome then ["update_timestamp <= %p"] else [])
    ++ (if low_filter.isSome then ["update_timestamp >= %p"] else [])

/-- Stated from the claim (C4): the parameters of the edge-pipe fragment, one
per present filter in clause order, with the limit bound as the final
parameter. -/
def edgePipeParamsSpec (type_filter : Option String)
    (high_filter low_filter : Option Timestamp) (limit : Nat) : List SqlParam :=
  (match type_filter with | some tf => [SqlParam.str tf] | none => [])
    ++ (match high_filter with | some hf => [SqlParam.time hf] | none => [])
    ++ (match low_filter with | some lf => [SqlParam.time lf] | none => [])
    ++ [SqlParam.int (Int.ofNat limit)]

/-- Stated from the claim (C4): the single fragment `EdgeQuery::Pipe` lowering
should push: select from the physical `edges` table where the chosen endpoint
is in the prior CTE's `id` projection, ANDed with the composed filter clause
when non-empty, ordered by `update_timestamp DESC`, limited. -/
def edgePipeFragmentSpec (converter : EdgeDirection) (type_filter : Option String)
    (high_filter low_filter : Option Timestamp) (limit : Nat) : Fragment :=
  let endpoint := match converter with
    | .Outbound => "outbound_id"
    | .Inbound => "inbound_id"
  let base := "SELECT id, outbound_id, type, inbound_id, update_timestamp FROM edges WHERE "
      ++ endpoint ++ " IN (SELECT id FROM %t)"
  let conds := edgePipeClausesSpec type_filter high_filter low_filter
  let withWhere :=
    if conds.isEmpty then base
    else base ++ " AND " ++ String.intercalate " AND " conds
  ⟨withWhere ++ " ORDER BY update_timestamp DESC LIMIT %p", "",
    edgePipeParamsSpec type_filter high_filter low_filter limit⟩

/-- Stated from the claim (C6): the fragment `VertexQuery::All` lowering should
push: the template with the `WHERE id > %p` clause and params [start_id, limit]
when `start_id` is present, the same template without the WHERE clause and
params [limit] otherwise. -/
def allFragmentSpec (start_id : Option Uuid) (limit : Nat) : Fragment :=
  match start_id with
  | some s =>
      ⟨"SELECT id, type FROM %t WHERE id > %p ORDER BY id LIMIT %p", "vertices",
        [.uuid s, .int (Int.ofNat limit)]⟩
  | none =>
      ⟨"SELECT id, type FROM %t ORDER BY id LIMIT %p", "vertices",
        [.int (Int.ofNat limit)]⟩

/-- Modelled from the spec: the rows of the `vertices` table (projected to ids)
that satisfy the `WHERE id > start_id` clause of the `All` query; the RDBMS
that evaluates the emitted SQL is outside src/. -/
def sqlAllFiltered (ids : List Uuid) (start_id : Option Uuid) : List Uuid :=
  match start_id with
  | some s => ids.filter (fun x => decide (s < x))
  | none => ids

/-- Modelled from the spec: the RDBMS evaluation of the emitted `All` query
(`ORDER BY id LIMIT k` over the filtered table); the database itself is
outside src/. -/
def sqlAllEval (ids : List Uuid) (start_id : Option Uuid) (limit : Nat) : List Uuid :=
  (List.insertionSort (· ≤ ·) (sqlAllFiltered ids start_id)).take limit

/-- C1: `Vertices { ids: [] }` and `Edges { keys: [] }` do NOT short-circuit or
emit `WHERE FALSE`: the lowering emits the malformed empty `IN ()` clause,
shown here by evaluating the lowering at the two empty inputs. -/
theorem c1_empty_input_emits_empty_in_clause :
    vertex_query_to_sql (.Vertices []) =
      [⟨"SELECT id, type FROM %t WHERE id IN () ORDER BY id", "vertices", []⟩]
    ∧ edge_query_to_sql (.Edges []) =
      [⟨"SELECT id, outbound_id, type, inbound_id, update_timestamp FROM %t WHERE (outbound_id, type, inbound_id) IN ()",
        "edges", []⟩] := by
  exact ⟨rfl, rfl⟩

/-- C5: lowering `VertexQuery::Pipe` first recurses on the inner edge query,
then pushes one tail fragment selecting id and type from the physical
`vertices` table where `id` is in the projection of `outbound_id` (Outbound)
or `inbound_id` (Inbound) from the prior CTE, ordered by `id` ascending,
capped by the limit parameter. -/
theorem c5_vertex_pipe_lowering (q : EdgeQuery) (converter : EdgeDirection) (limit : Nat) :
    vertex_query_to_sql (.Pipe q converter limit) =
      edge_query_to_sql q ++ [vertexPipeFragmentSpec converter limit] := by
  cases converter <;> rfl

/-- C4: lowering `EdgeQuery::Pipe` first recurses on the inner vertex query,
then pushes one fragment whose WHERE clause contains `type = %p` exactly when
the type filter is present, `update_timestamp <= %p` exactly when the high
filter is present, and `update_timestamp >= %p` exactly when the low filter is
present, in that order joined by AND; the fragment selects from the physical
`edges` table where the chosen endpoint column is in the prior CTE's `id`
projection, ordered by `update_timestamp DESC` with the limit bound as the
final parameter. -/
theorem c4_edge_pipe_lowering (q : VertexQuery) (converter : EdgeDirection)
    (type_filter : Option String) (high_filter low_filter : Option Timestamp)
    (limit : Nat) :
    edge_query_to_sql (.Pipe q converter type_filter high_filter low_filter limit) =
      vertex_query_to_sql q
        ++ [edgePipeFragmentSpec converter type_filter high_filter low_filter limit] := by
  cases converter <;> cases type_filter <;> cases high_filter <;> cases low_filter <;> rfl

/-- C6: lowering `VertexQuery::All` pushes the template with `WHERE id > %p`
and params [start_id, limit] when `start_id` is present, the same template
without the WHERE clause and params [limit] otherwise; under the modelled RDBMS
evaluation the result is the `limit` smallest ids ascending, strictly greater
than `start_id` when one is given: it is sorted ascending, every element
exceeds `start_id`, its length is `min limit` (number of qualifying rows), and
no excluded qualifying id is smaller than any returned id. -/
theorem c6_all_lowering (start_id : Option Uuid) (limit : Nat) (ids : List Uuid) :
    vertex_query_to_sql (.All start_id limit) = [allFragmentSpec start_id limit]
    ∧ (sqlAllEval ids start_id limit).Sorted (· ≤ ·)
    ∧ (∀ s, start_id = some s → ∀ x ∈ sqlAllEval ids start_id limit, s < x)
    ∧ (sqlAllEval ids start_id limit).length
        = min limit (sqlAllFiltered ids start_id).length
    ∧ ∀ x ∈ sqlAllFiltered ids start_id, x ∉ sqlAllEval ids start_id limit →
        ∀ y ∈ sqlAllEval ids start_id limit, y ≤ x := by
  refine ⟨?_, ?_, ?_, ?_, ?_⟩
  · cases start_id <;> rfl
  · exact List.Pairwise.sublist (List.take_sublist _ _) (List.sorted_insertionSort _ _)
  · intro s hs x hx
    subst hs
    have hx2 : x ∈ List.insertionSort (· ≤ ·) (sqlAllFiltered ids (some s)) :=
      List.mem_of_mem_take hx
    have hx3 : x ∈ ids.filter (fun y => decide (s < y)) :=
      (List.perm_insertionSort _ _).mem_iff.mp hx2
    simpa using List.of_mem_filter hx3
  · unfold sqlAllEval
    rw [List.length_take, (List.perm_insertionSort _ _).length_eq]
  · intro x hxf hxn y hy
    set L := List.insertionSort (· ≤ ·) (sqlAllFiltered ids start_id) with hL
    have hxL : x ∈ L := (List.perm_insertionSort _ _).mem_iff.mpr hxf
    have hsplit : L.take limit ++ L.drop limit = L := List.take_append_drop _ _
    have hxL2 : x ∈ L.take limit ++ L.drop limit := by rw [hsplit]; exact hxL
    have hxd : x ∈ L.drop limit := by
      rcases List.mem_append.mp hxL2 with h | h
      · exact absurd h hxn
      · exact h
    have hp : (L.take limit ++ L.drop limit).Pairwise (· ≤ ·) := by
      rw [hsplit]; exact List.sorted_insertionSort _ _
    exact (List.pairwise_append.mp hp).2.2 y hy x hxd

/-- C2: each create runs its insert inside a savepoint; the returned value is
always `Ok` (never a transaction-level error): `Ok(false)` with the outer
state untouched when the insert fails (for `create_vertex`, a duplicate
vertex id), `Ok(true)` with the insert applied when it succeeds. -/
theorem c2_savepoint_create (st : DbState) (id newId : Uuid) (t : String)
    (key : EdgeKey) (now : Timestamp) :
    (∃ b, (create_vertex st id t).2 = .ok b)
    ∧ (st.vertices.any (fun v => v.1 == id) = true →
        create_vertex st id t = (st, .ok false))
    ∧ (st.vertices.any (fun v => v.1 == id) = false →
        create_vertex st id t
          = ({ st with vertices := st.vertices ++ [(id, t)] }, .ok true))
    ∧ (∃ b, (create_edge st newId key now).2 = .ok b)
    ∧ (∀ e, upsertEdgeSql st newId key now = .error e →
        create_edge st newId key now = (st, .ok false))
    ∧ (∀ st2, upsertEdgeSql st newId key now = .ok st2 →
        create_edge st newId key now = (st2, .ok true)) := by
  refine ⟨⟨(withSavepoint st (fun s => insertVertexSql s id t)).2, rfl⟩, ?_, ?_,
    ⟨(withSavepoint st (fun s => upsertEdgeSql s newId key now)).2, rfl⟩, ?_, ?_⟩
  · intro hdup
    simp [create_vertex, withSavepoint, insertVertexSql, hdup]
  · intro hfresh
    simp [create_vertex, withSavepoint, insertVertexSql, hfresh]
  · intro e he
    simp [create_edge, withSavepoint, he]
  · intro st2 h2
    simp [create_edge, withSavepoint, h2]

/-- Updating only `update_timestamp` does not change whether a row matches an
edge key. -/
theorem edgeKeyMatches_set_timestamp (key : EdgeKey) (r : EdgeRow) (now : Timestamp) :
    edgeKeyMatches key { r with update_timestamp := now } = edgeKeyMatches key r := rfl

/-- Refreshing timestamps of the matching rows preserves the number of
matching rows. -/
theorem refreshed_filter_length (key : EdgeKey) (now : Timestamp) (l : List EdgeRow) :
    ((l.map (fun r =>
        if edgeKeyMatches key r then { r with update_timestamp := now } else r)).filter
          (edgeKeyMatches key)).length
      = (l.filter (edgeKeyMatches key)).length := by
  induction l with
  | nil => rfl
  | cons a l ih =>
    by_cases h : edgeKeyMatches key a
    · simp [List.filter_cons, h, edgeKeyMatches_set_timestamp, ih]
    · simp [List.filter_cons, h, ih]

/-- With both endpoint vertices present and a conflicting row present, the
upsert refreshes the matching timestamps. -/
theorem upsertEdgeSql_eq_update (s : DbState) (newId : Uuid) (key : EdgeKey)
    (now : Timestamp)
    (hout : s.vertices.any (fun v => v.1 == key.outbound_id) = true)
    (hin : s.vertices.any (fun v => v.1 == key.inbound_id) = true)
    (h : s.edges.any (edgeKeyMatches key) = true) :
    upsertEdgeSql s newId key now
      = .ok { s with edges := refreshEdges s.edges key now } := by
  simp [upsertEdgeSql, hout, hin, h]

/-- With both endpoint vertices present and no conflicting row, the upsert
inserts a fresh row carrying `now`. -/
theorem upsertEdgeSql_eq_insert (s : DbState) (newId : Uuid) (key : EdgeKey)
    (now : Timestamp)
    (hout : s.vertices.any (fun v => v.1 == key.outbound_id) = true)
    (hin : s.vertices.any (fun v => v.1 == key.inbound_id) = true)
    (h : s.edges.any (edgeKeyMatches key) = false) :
    upsertEdgeSql s newId key now
      = .ok { s with edges :=
          s.edges ++ [⟨newId, key.outbound_id, key.t, key.inbound_id, now⟩] } := by
  simp [upsertEdgeSql, hout, hin, h]

/-- The state component of `create_edge` when the upsert succeeds. -/
theorem create_edge_of_ok (s st2 : DbState) (newId : Uuid) (key : EdgeKey)
    (now : Timestamp) (h : upsertEdgeSql s newId key now = .ok st2) :
    create_edge s newId key now = (st2, .ok true) := by
  simp [create_edge, withSavepoint, h]

/-- A single `create_edge` call whose endpoint vertices exist leaves exactly
one matching row, refreshes every matching row's timestamp to `now`, and does
not touch the `vertices` table. -/
theorem create_edge_step (s : DbState) (newId : Uuid) (key : EdgeKey) (now : Timestamp)
    (hout : s.vertices.any (fun v => v.1 == key.outbound_id) = true)
    (hin : s.vertices.any (fun v => v.1 == key.inbound_id) = true)
    (hinv : (s.edges.filter (edgeKeyMatches key)).length ≤ 1) :
    ((create_edge s newId key now).1.edges.filter (edgeKeyMatches key)).length = 1
    ∧ (∀ r ∈ (create_edge s newId key now).1.edges,
        edgeKeyMatches key r = true → r.update_timestamp = now)
    ∧ (create_edge s newId key now).1.vertices = s.vertices := by
  by_cases h : s.edges.any (edgeKeyMatches key)
  · rw [create_edge_of_ok s _ newId key now (upsertEdgeSql_eq_update s newId key now hout hin h)]
    refine ⟨?_, ?_, rfl⟩
    · rw [refreshEdges] at *
      rw [refreshed_filter_length]
      obtain ⟨r, hr, hpr⟩ := List.any_eq_true.mp h
      have hpos : 0 < (s.edges.filter (edgeKeyMatches key)).length :=
        List.length_pos.mpr (List.ne_nil_of_mem (List.mem_filter.mpr ⟨hr, hpr⟩))
      omega
    · intro r hr hpr
      obtain ⟨r0, hr0, rfl⟩ := List.mem_map.mp hr
      by_cases h0 : edgeKeyMatches key r0
      · simp [h0]
      · rw [if_neg h0] at hpr
        exact absurd hpr (by simp [h0])
  · rw [create_edge_of_ok s _ newId key now
      (upsertEdgeSql_eq_insert s newId key now hout hin (by simpa using h))]
    refine ⟨?_, ?_, rfl⟩
    · rw [List.filter_append]
      have hnil : s.edges.filter (edgeKeyMatches key) = [] := by
        rw [List.filter_eq_nil_iff]
        intro r hr
        intro hpr
        exact h (List.any_eq_true.mpr ⟨r, hr, hpr⟩)
      rw [hnil]
      simp [edgeKeyMatches]
    · intro r hr hpr
      rcases List.mem_append.mp hr with h1 | h1
      · exact absurd (List.any_eq_true.mpr ⟨r, h1, hpr⟩) (by simp [h])
      · rcases List.mem_singleton.mp h1 with rfl
        rfl

/-- `create_edge` never touches the `vertices` table. -/
theorem create_edge_vertices (s : DbState) (newId : Uuid) (key : EdgeKey)
    (now : Timestamp) :
    (create_edge s newId key now).1.vertices = s.vertices := by
  rcases he : upsertEdgeSql s newId key now with e | st2
  · simp [create_edge, withSavepoint, he]
  · rw [create_edge_of_ok s st2 newId key now he]
    unfold upsertEdgeSql at he
    split at he
    · cases he
    · split at he <;> (cases he; rfl)

/-- A sequence of `create_edge` calls never touches the `vertices` table. -/
theorem create_edge_seq_vertices (st : DbState) (key : EdgeKey)
    (calls : List (Uuid × Timestamp)) :
    (create_edge_seq st key calls).vertices = st.vertices := by
  induction calls generalizing st with
  | nil => rfl
  | cons c cs ih =>
    show (create_edge_seq (create_edge st c.1 key c.2).1 key cs).vertices = st.vertices
    rw [ih, create_edge_vertices]

/-- The at-most-one-matching-row invariant is preserved by any sequence of
`create_edge` calls for the key, provided the endpoint vertices exist. -/
theorem create_edge_seq_inv (st : DbState) (key : EdgeKey)
    (calls : List (Uuid × Timestamp))
    (hout : st.vertices.any (fun v => v.1 == key.outbound_id) = true)
    (hin : st.vertices.any (fun v => v.1 == key.inbound_id) = true)
    (hinv : (st.edges.filter (edgeKeyMatches key)).length ≤ 1) :
    ((create_edge_seq st key calls).edges.filter (edgeKeyMatches key)).length ≤ 1 := by
  induction calls generalizing st with
  | nil => exact hinv
  | cons c cs ih =>
    show ((create_edge_seq (create_edge st c.1 key c.2).1 key cs).edges.filter
      (edgeKeyMatches key)).length ≤ 1
    have hv := create_edge_vertices st c.1 key c.2
    exact ih _ (by rw [hv]; exact hout) (by rw [hv]; exact hin)
      (le_of_eq (create_edge_step st c.1 key c.2 hout hin hinv).1)

/-- After any sequence of calls followed by one more call `c`, there is
exactly one matching row and every matching row carries `c`'s server time. -/
theorem create_edge_seq_last_refresh (st : DbState) (key : EdgeKey)
    (pre : List (Uuid × Timestamp)) (c : Uuid × Timestamp)
    (hout : st.vertices.any (fun v => v.1 == key.outbound_id) = true)
    (hin : st.vertices.any (fun v => v.1 == key.inbound_id) = true)
    (hinv : (st.edges.filter (edgeKeyMatches key)).length ≤ 1) :
    ((create_edge_seq st key (pre ++ [c])).edges.filter (edgeKeyMatches key)).length = 1
    ∧ ∀ r ∈ (create_edge_seq st key (pre ++ [c])).edges,
        edgeKeyMatches key r = true → r.update_timestamp = c.2 := by
  have hseq : create_edge_seq st key (pre ++ [c])
      = (create_edge (create_edge_seq st key pre) c.1 key c.2).1 := by
    unfold create_edge_seq
    rw [List.foldl_append]
    rfl
  rw [hseq]
  have hv := create_edge_seq_vertices st key pre
  have hstep := create_edge_step (create_edge_seq st key pre) c.1 key c.2
    (by rw [hv]; exact hout) (by rw [hv]; exact hin)
    (create_edge_seq_inv st key pre hout hin hinv)
  exact ⟨hstep.1, hstep.2.1⟩

/-- C3: for a key `K` whose endpoint vertices exist and whose unique
constraint held initially, any non-empty sequence of `create_edge(K)` calls
(each with its fresh surrogate UUID and server time) leaves exactly one row
for `K` in the `edges` table, and after every processed call of the sequence
each matching row's `update_timestamp` equals that call's server time, whether
the row was inserted or updated. -/
theorem c3_create_edge_upsert (st : DbState) (key : EdgeKey)
    (calls : List (Uuid × Timestamp))
    (hout : st.vertices.any (fun v => v.1 == key.outbound_id) = true)
    (hin : st.vertices.any (fun v => v.1 == key.inbound_id) = true)
    (hinv : (st.edges.filter (edgeKeyMatches key)).length ≤ 1)
    (hne : calls ≠ []) :
    ((create_edge_seq st key calls).edges.filter (edgeKeyMatches key)).length = 1
    ∧ ∀ pre c post, calls = pre ++ c :: post →
        ∀ r ∈ (create_edge_seq st key (pre ++ [c])).edges,
          edgeKeyMatches key r = true → r.update_timestamp = c.2 := by
  constructor
  · have hdecomp := List.dropLast_append_getLast hne
    rw [← hdecomp]
    exact (create_edge_seq_last_refresh st key calls.dropLast (calls.getLast hne)
      hout hin hinv).1
  · intro pre c post hcalls
    exact (create_edge_seq_last_refresh st key pre c hout hin hinv).2

/-- Concrete instantiation of the upsert-idempotence theorem: two vertices,
one key, two calls. -/
theorem c3_create_edge_upsert_witness :
    ((DbState.mk [(1, "person"), (2, "person")] []).vertices.any
        (fun v => v.1 == (EdgeKey.mk 1 "knows" 2).outbound_id) = true)
    ∧ ((DbState.mk [(1, "person"), (2, "person")] []).vertices.any
        (fun v => v.1 == (EdgeKey.mk 1 "knows" 2).inbound_id) = true)
    ∧ (((DbState.mk [(1, "person"), (2, "person")] []).edges.filter
        (edgeKeyMatches (EdgeKey.mk 1 "knows" 2))).length ≤ 1)
    ∧ ([((10 : Uuid), (5 : Timestamp)), (11, 9)] ≠ [])
    ∧ (((create_edge_seq (DbState.mk [(1, "person"), (2, "person")] [])
          (EdgeKey.mk 1 "knows" 2) [(10, 5), (11, 9)]).edges.filter
            (edgeKeyMatches (EdgeKey.mk 1 "knows" 2))).length = 1
        ∧ ∀ pre c post, [((10 : Uuid), (5 : Timestamp)), (11, 9)] = pre ++ c :: post →
            ∀ r ∈ (create_edge_seq (DbState.mk [(1, "person"), (2, "person")] [])
                (EdgeKey.mk 1 "knows" 2) (pre ++ [c])).edges,
              edgeKeyMatches (EdgeKey.mk 1 "knows" 2) r = true →
                r.update_timestamp = c.2) :=
  ⟨by decide, by decide, by decide, by decide,
    c3_create_edge_upsert (DbState.mk [(1, "person"), (2, "person")] [])
      (EdgeKey.mk 1 "knows" 2) [(10, 5), (11, 9)]
      (by decide) (by decide) (by decide) (by decide)⟩

/-- `PostgresDatastore::new` (datastore.rs lines 33-45): the maximum pool size
actually used, from the optional `pool_size` argument and the machine's CPU
count. -/
def unwrapped_pool_size (cpu_count : Nat) (pool_size : Option Nat) : Nat :=
  match pool_size with
  | some val => val
  | none => min cpu_count 128

/-- C8: when `PostgresDatastore::new` is called with `pool_size = None`, the
connection pool's maximum size is min(cpu_count, 128). -/
theorem c8_default_pool_size (cpu_count : Nat) :
    unwrapped_pool_size cpu_count none = min cpu_count 128 := rfl

/-- Outcome of a count operation: the returned count, the `unreachable!()`
branch after the row loop, or a propagated driver error. -/
inductive CountOutcome where
  | ok (n : Int)
  | unreachable
  | err (e : String)
  deriving Repr, DecidableEq

/-- `PostgresTransaction::get_vertex_count` (datastore.rs lines 277-286): run
`SELECT COUNT(*) FROM vertices` and propagate any driver error; otherwise
return the count of the first row, reaching `unreachable!()` when the driver
returned no rows at all. -/
def get_vertex_count (queryResult : Except String (List Int)) : CountOutcome :=
  match queryResult with
  | .error e => .err e
  | .ok [] => .unreachable
  | .ok (count :: _) => .ok count

/-- The SQL text `PostgresTransaction::get_edge_count` (datastore.rs lines
350-377) chooses from the direction and the optional type filter. -/
def get_edge_count_sql (direction : EdgeDirection) (type_filter : Option String) :
    String :=
  match direction, type_filter with
  | .Outbound, some _ => "SELECT COUNT(*) FROM edges WHERE outbound_id=$1 AND type=$2"
  | .Outbound, none => "SELECT COUNT(*) FROM edges WHERE outbound_id=$1"
  | .Inbound, some _ => "SELECT COUNT(*) FROM edges WHERE inbound_id=$1 AND type=$2"
  | .Inbound, none => "SELECT COUNT(*) FROM edges WHERE inbound_id=$1"

/-- The row loop of `get_edge_count`, identical to `get_vertex_count`: first
row's count, or the `unreachable!()` branch on zero rows. -/
def get_edge_count (queryResult : Except String (List Int)) : CountOutcome :=
  match queryResult with
  | .error e => .err e
  | .ok [] => .unreachable
  | .ok (count :: _) => .ok count

/-- C9: both count operations return the count from the first row of the
`COUNT(*)` result; on a zero-row result they reach the `unreachable!()`
branch and in particular never produce an `Err` — so under the database
contract that `COUNT(*)` yields exactly one row the panic branch is never
executed. -/
theorem c9_count_first_row (count : Int) (rest : List Int) :
    get_vertex_count (.ok (count :: rest)) = .ok count
    ∧ get_edge_count (.ok (count :: rest)) = .ok count
    ∧ get_vertex_count (.ok []) = .unreachable
    ∧ get_edge_count (.ok []) = .unreachable
    ∧ (∀ e, get_vertex_count (.ok []) ≠ .err e)
    ∧ (∀ e, get_edge_count (.ok []) ≠ .err e) := by
  refine ⟨rfl, rfl, rfl, rfl, ?_, ?_⟩ <;> intro e h <;> cases h

/-- Outcome of a row-decoding loop: the decoded records, or the panic raised
by `models::Type::new(t_str).unwrap()` on the offending label. The type has
no error constructor because the decoding loops in the source have no error
path: any driver error was propagated before the loop. -/
inductive DecodeOutcome (α : Type) where
  | ok (xs : List α)
  | unwrapFailed (badLabel : String)
  deriving Repr, DecidableEq

/-- Modelled from the spec: `models::Type::new` performs the domain validation
of a label string and fails on a malformed one (the models crate is outside
src/); `valid` stands for its validation predicate. -/
def typeNew (valid : String → Bool) (s : String) : Option String :=
  if valid s then some s else none

/-- The decoded form of a `vertices` row: `models::Vertex`. -/
structure Vertex where
  id : Uuid
  t : String
  deriving Repr, DecidableEq

/-- The decoded form of an `edges` row: `models::Edge`. -/
structure Edge where
  key : EdgeKey
  update_timestamp : Timestamp
  deriving Repr, DecidableEq

/-- The decoded form of an edge-metadata row: `models::EdgeMetadata`, the
owning edge's key triple plus the JSON value (opaque string). -/
structure EdgeMetadataRec where
  key : EdgeKey
  value : String
  deriving Repr, DecidableEq

/-- The row loop of `get_vertices` (datastore.rs lines 255-260): each row
`(id, t_str)` is decoded with `models::Type::new(t_str).unwrap()`. -/
def get_vertices_decode (valid : String → Bool) :
    List (Uuid × String) → DecodeOutcome Vertex
  | [] => .ok []
  | (id, t) :: rest =>
    match typeNew valid t with
    | none => .unwrapFailed t
    | some ty =>
      match get_vertices_decode valid rest with
      | .ok vs => .ok (⟨id, ty⟩ :: vs)
      | .unwrapFailed b => .unwrapFailed b

/-- The row loop of `get_edges` (datastore.rs lines 326-335): each row
`(outbound_id, t_str, inbound_id, update_datetime)` is decoded with
`models::Type::new(t_str).unwrap()`. -/
def get_edges_decode (valid : String → Bool) :
    List (Uuid × String × Uuid × Timestamp) → DecodeOutcome Edge
  | [] => .ok []
  | (outbound_id, t, inbound_id, ts) :: rest =>
    match typeNew valid t with
    | none => .unwrapFailed t
    | some ty =>
      match get_edges_decode valid rest with
      | .ok es => .ok (⟨⟨outbound_id, ty, inbound_id⟩, ts⟩ :: es)
      | .unwrapFailed b => .unwrapFailed b

/-- The row loop of `get_edge_metadata` (datastore.rs lines 449-457): each row
`(outbound_id, t_str, inbound_id, value)` is decoded with
`models::Type::new(t_str).unwrap()`. -/
def get_edge_metadata_decode (valid : String → Bool) :
    List (Uuid × String × Uuid × String) → DecodeOutcome EdgeMetadataRec
  | [] => .ok []
  | (outbound_id, t, inbound_id, value) :: rest =>
    match typeNew valid t with
    | none => .unwrapFailed t
    | some ty =>
      match get_edge_metadata_decode valid rest with
      | .ok ms => .ok (⟨⟨outbound_id, ty, inbound_id⟩, value⟩ :: ms)
      | .unwrapFailed b => .unwrapFailed b

/-- C10: the three decoding loops succeed (`Ok`) precisely when every returned
row carries a valid type label; on any invalid stored label they end in the
`unwrap` panic — the outcome type has no error constructor, so they can never
surface the bad label as an `Err`. -/
theorem c10_decode_unwraps_labels (valid : String → Bool)
    (vrows : List (Uuid × String))
    (erows : List (Uuid × String × Uuid × Timestamp))
    (mrows : List (Uuid × String × Uuid × String)) :
    ((∃ xs, get_vertices_decode valid vrows = .ok xs)
        ↔ ∀ r ∈ vrows, valid r.2 = true)
    ∧ ((∃ xs, get_edges_decode valid erows = .ok xs)
        ↔ ∀ r ∈ erows, valid r.2.1 = true)
    ∧ ((∃ xs, get_edge_metadata_decode valid mrows = .ok xs)
        ↔ ∀ r ∈ mrows, valid r.2.1 = true) := by
  refine ⟨?_, ?_, ?_⟩
  · induction vrows with
    | nil => simp [get_vertices_decode]
    | cons a rest ih =>
      obtain ⟨id, t⟩ := a
      by_cases hv : valid t
      · cases hr : get_vertices_decode valid rest with
        | ok xs =>
          simp only [get_vertices_decode, typeNew, hv, if_true, hr]
          simp only [List.mem_cons]
          constructor
          · intro _ r hmem
            rcases hmem with rfl | hmem
            · exact hv
            · exact (ih.mp ⟨xs, hr⟩) r hmem
          · intro _
            exact ⟨_, rfl⟩
        | unwrapFailed b =>
          simp only [get_vertices_decode, typeNew, hv, if_true, hr]
          constructor
          · rintro ⟨xs, hxs⟩
            cases hxs
          · intro hall
            obtain ⟨xs, hxs⟩ := ih.mpr fun r hmem => hall r (List.mem_cons_of_mem _ hmem)
            rw [hxs] at hr
            cases hr
      · simp only [get_vertices_decode, typeNew, hv, if_false]
        constructor
        · rintro ⟨xs, hxs⟩
          cases hxs
        · intro hall
          exact absurd (hall (id, t) (List.mem_cons_self _ _)) (by simp [hv])
  · induction erows with
    | nil => simp [get_edges_decode]
    | cons a rest ih =>
      obtain ⟨o, t, i, ts⟩ := a
      by_cases hv : valid t
      · cases hr : get_edges_decode valid rest with
        | ok xs =>
          simp only [get_edges_decode, typeNew, hv, if_true, hr]
          simp only [List.mem_cons]
          constructor
          · intro _ r hmem
            rcases hmem with rfl | hmem
            · exact hv
            · exact (ih.mp ⟨xs, hr⟩) r hmem
          · intro _
            exact ⟨_, rfl⟩
        | unwrapFailed b =>
          simp only [get_edges_decode, typeNew, hv, if_true, hr]
          constructor
          · rintro ⟨xs, hxs⟩
            cases hxs
          · intro hall
            obtain ⟨xs, hxs⟩ := ih.mpr fun r hmem => hall r (List.mem_cons_of_mem _ hmem)
            rw [hxs] at hr
            cases hr
      · simp only [get_edges_decode, typeNew, hv, if_false]
        constructor
        · rintro ⟨xs, hxs⟩
          cases hxs
        · intro hall
          exact absurd (hall (o, t, i, ts) (List.mem_cons_self _ _)) (by simp [hv])
  · induction mrows with
    | nil => simp [get_edge_metadata_decode]
    | cons a rest ih =>
      obtain ⟨o, t, i, val⟩ := a
      by_cases hv : valid t
      · cases hr : get_edge_metadata_decode valid rest with
        | ok xs =>
          simp only [get_edge_metadata_decode, typeNew, hv, if_true, hr]
          simp only [List.mem_cons]
          constructor
          · intro _ r hmem
            rcases hmem with rfl | hmem
            · exact hv
            · exact (ih.mp ⟨xs, hr⟩) r hmem
          · intro _
            exact ⟨_, rfl⟩
        | unwrapFailed b =>
          simp only [get_edge_metadata_decode, typeNew, hv, if_true, hr]
          constructor
          · rintro ⟨xs, hxs⟩
            cases hxs
          · intro hall
            obtain ⟨xs, hxs⟩ := ih.mpr fun r hmem => hall r (List.mem_cons_of_mem _ hmem)
            rw [hxs] at hr
            cases hr
      · simp only [get_edge_metadata_decode, typeNew, hv, if_false]
        constructor
        · rintro ⟨xs, hxs⟩
          cases hxs
        · intro hall
          exact absurd (hall (o, t, i, val) (List.mem_cons_self _ _)) (by simp [hv])

/-- One row of the `vertex_metadata` / `edge_metadata` tables: the primary key
(`owner_id`, `name`) and the JSON value (opaque string). -/
structure MetaRow where
  owner_id : Uuid
  name : String
  value : String
  deriving Repr, DecidableEq

/-- Whether a metadata row has the given primary key (`owner_id`, `name`). -/
def metaKeyIs (o : Uuid) (n : String) (r : MetaRow) : Bool :=
  r.owner_id == o && r.name == n

/-- The primary-key invariant of the metadata tables: no two rows share
(`owner_id`, `name`). -/
def metaKeyNodup (tbl : List MetaRow) : Prop :=
  (tbl.map fun r => (r.owner_id, r.name)).Nodup

/-- Modelled from the spec: the database's execution, for one owner id, of the
metadata upsert issued by `set_vertex_metadata` / `set_edge_metadata`
(`INSERT INTO ..._metadata (owner_id, name, value) SELECT id, $., $. FROM <q>
ON CONFLICT ON CONSTRAINT ..._pkey DO UPDATE SET value=$.`): overwrite the
value of the existing (`owner_id`, `name`) row on conflict, insert the row
otherwise (the RDBMS is outside src/). -/
def upsertMetaRow (tbl : List MetaRow) (o : Uuid) (n v : String) : List MetaRow :=
  if tbl.any (metaKeyIs o n) then
    tbl.map fun r => if metaKeyIs o n r then { r with value := v } else r
  else
    tbl ++ [⟨o, n, v⟩]

/-- The whole upsert statement of `set_vertex_metadata` (datastore.rs lines
399-418) and `set_edge_metadata` (lines 462-481): one upsert per owner id
produced by the lowered query. -/
def set_metadata (tbl : List MetaRow) (owners : List Uuid) (n v : String) :
    List MetaRow :=
  owners.foldl (fun t o => upsertMetaRow t o n v) tbl

/-- The SELECT of `get_vertex_metadata` / `get_edge_metadata`, scoped to the
owner ids produced by the lowered query and matched by metadata name. -/
def get_metadata (tbl : List MetaRow) (owners : List Uuid) (n : String) :
    List (Uuid × String) :=
  (tbl.filter fun r => owners.contains r.owner_id && r.name == n).map
    fun r => (r.owner_id, r.value)

/-- The value stored under a metadata primary key, if any. -/
def lookupMeta (tbl : List MetaRow) (o : Uuid) (n : String) : Option String :=
  (tbl.find? (metaKeyIs o n)).map fun r => r.value

/-- Overwriting only `value` does not change a row's primary key. -/
theorem metaKeyIs_set_value (o : Uuid) (n v : String) (r : MetaRow) :
    metaKeyIs o n { r with value := v } = metaKeyIs o n r := rfl

/-- Finding the key in the value-overwritten table is finding it in the
original one, with the overwrite applied. -/
theorem find_map_update (t : List MetaRow) (o : Uuid) (n v : String) :
    (t.map fun r => if metaKeyIs o n r then { r with value := v } else r).find?
        (metaKeyIs o n)
      = (t.find? (metaKeyIs o n)).map fun r => { r with value := v } := by
  induction t with
  | nil => rfl
  | cons a t ih =>
    by_cases h : metaKeyIs o n a
    · simp [h, metaKeyIs_set_value]
    · simp [h, ih]

/-- After upserting a key, looking the key up yields the new value. -/
theorem lookup_upsert_same (t : List MetaRow) (o : Uuid) (n v : String) :
    lookupMeta (upsertMetaRow t o n v) o n = some v := by
  unfold upsertMetaRow
  by_cases h : t.any (metaKeyIs o n)
  · rw [if_pos h]
    unfold lookupMeta
    rw [find_map_update]
    obtain ⟨r, hr, hpr⟩ := List.any_eq_true.mp h
    cases hf : t.find? (metaKeyIs o n) with
    | none => exact absurd hpr (by simpa using List.find?_eq_none.mp hf r hr)
    | some r0 => simp
  · rw [if_neg h]
    unfold lookupMeta
    rw [List.find?_append]
    have hnone : t.find? (metaKeyIs o n) = none :=
      List.find?_eq_none.mpr fun r hr hpr => h (List.any_eq_true.mpr ⟨r, hr, hpr⟩)
    simp [hnone, metaKeyIs]

/-- Upserting a different owner's key does not change what another key maps
to. -/
theorem find_map_update_other (t : List MetaRow) (o o2 : Uuid) (n v : String)
    (ho : o ≠ o2) :
    (t.map fun r => if metaKeyIs o2 n r then { r with value := v } else r).find?
        (metaKeyIs o n)
      = t.find? (metaKeyIs o n) := by
  induction t with
  | nil => rfl
  | cons a t ih =>
    by_cases h : metaKeyIs o2 n a
    · have hno : metaKeyIs o n a = false := by
        rcases hcon : metaKeyIs o n a with _ | _
        · rfl
        · exfalso
          have h1 : a.owner_id = o2 := by
            have := (Bool.and_eq_true _ _).mp h
            exact eq_of_beq this.1
          have h2 : a.owner_id = o := by
            have := (Bool.and_eq_true _ _).mp hcon
            exact eq_of_beq this.1
          exact ho (h2 ▸ h1)
      simp [h, hno, metaKeyIs_set_value, ih]
    · by_cases h2 : metaKeyIs o n a
      · simp [h, h2]
      · simp [h, h2, ih]

/-- Lookup of a key is unchanged by an upsert for a different owner. -/
theorem lookup_upsert_other (t : List MetaRow) (o o2 : Uuid) (n v : String)
    (ho : o ≠ o2) :
    lookupMeta (upsertMetaRow t o2 n v) o n = lookupMeta t o n := by
  unfold upsertMetaRow
  by_cases h : t.any (metaKeyIs o2 n)
  · rw [if_pos h]
    unfold lookupMeta
    rw [find_map_update_other t o o2 n v ho]
  · rw [if_neg h]
    unfold lookupMeta
    rw [List.find?_append]
    have hnew : metaKeyIs o n ⟨o2, n, v⟩ = false := by
      rcases hcon : metaKeyIs o n ⟨o2, n, v⟩ with _ | _
      · rfl
      · exfalso
        have := (Bool.and_eq_true _ _).mp hcon
        exact ho (eq_of_beq this.1).symm
    cases hf : t.find? (metaKeyIs o n) with
    | none => simp [hnew]
    | some r0 => simp

/-- An upsert preserves the primary-key invariant. -/
theorem metaKeyNodup_upsert (t : List MetaRow) (o : Uuid) (n v : String)
    (hnd : metaKeyNodup t) : metaKeyNodup (upsertMetaRow t o n v) := by
  unfold upsertMetaRow
  by_cases h : t.any (metaKeyIs o n)
  · rw [if_pos h]
    unfold metaKeyNodup at *
    have hkeys : ((t.map fun r => if metaKeyIs o n r then { r with value := v } else r).map
        fun r => (r.owner_id, r.name)) = t.map fun r => (r.owner_id, r.name) := by
      rw [List.map_map]
      apply List.map_congr_left
      intro a _
      by_cases ha : metaKeyIs o n a <;> simp [ha]
    rw [hkeys]
    exact hnd
  · rw [if_neg h]
    unfold metaKeyNodup at *
    rw [List.map_append]
    rw [List.nodup_append]
    refine ⟨hnd, List.nodup_singleton _, ?_⟩
    intro p hp hq
    rcases List.mem_singleton.mp hq with rfl
    obtain ⟨r, hr, hkey⟩ := List.mem_map.mp hp
    apply h
    apply List.any_eq_true.mpr
    refine ⟨r, hr, ?_⟩
    unfold metaKeyIs
    have h1 : r.owner_id = o := congrArg Prod.fst hkey
    have h2 : r.name = n := congrArg Prod.snd hkey
    simp [h1, h2]

/-- In a table satisfying the primary-key invariant, any member row's value is
what lookup of its key returns. -/
theorem lookup_of_mem_nodup (t : List MetaRow) (r : MetaRow)
    (hnd : metaKeyNodup t) (hr : r ∈ t) :
    lookupMeta t r.owner_id r.name = some r.value := by
  induction t with
  | nil => cases hr
  | cons a t ih =>
    have hnd' : metaKeyNodup t := by
      unfold metaKeyNodup at hnd ⊢
      exact (List.nodup_cons.mp hnd).2
    rcases List.mem_cons.mp hr with rfl | hr2
    · unfold lookupMeta
      rw [List.find?_cons_of_pos _ (by simp [metaKeyIs])]
      rfl
    · have hna : metaKeyIs r.owner_id r.name a = false := by
        rcases hcon : metaKeyIs r.owner_id r.name a with _ | _
        · rfl
        · exfalso
          have hand := (Bool.and_eq_true _ _).mp hcon
          have h1 : a.owner_id = r.owner_id := eq_of_beq hand.1
          have h2 : a.name = r.name := eq_of_beq hand.2
          have hkeys := List.nodup_cons.mp hnd
          apply hkeys.1
          apply List.mem_map.mpr
          refine ⟨r, hr2, ?_⟩
          show (r.owner_id, r.name) = (a.owner_id, a.name)
          rw [h1, h2]
      unfold lookupMeta at ih ⊢
      rw [List.find?_cons_of_neg _ (by simp [hna])]
      exact ih hnd' hr2

/-- A key already mapped to `v` keeps mapping to `v` through a whole
`set_metadata` pass writing `v`. -/
theorem lookup_set_metadata_of_eq (owners : List Uuid) (t : List MetaRow)
    (o : Uuid) (n v : String) (h : lookupMeta t o n = some v) :
    lookupMeta (set_metadata t owners n v) o n = some v := by
  induction owners generalizing t with
  | nil => exact h
  | cons o2 os ih =>
    show lookupMeta (set_metadata (upsertMetaRow t o2 n v) os n v) o n = some v
    apply ih
    by_cases ho : o = o2
    · subst ho
      exact lookup_upsert_same t o n v
    · rw [lookup_upsert_other t o o2 n v ho]
      exact h

/-- After a `set_metadata` pass, every owner in the pass maps to the written
value. -/
theorem lookup_set_metadata_mem (owners : List Uuid) (t : List MetaRow)
    (o : Uuid) (n v : String) (ho : o ∈ owners) :
    lookupMeta (set_metadata t owners n v) o n = some v := by
  induction owners generalizing t with
  | nil => cases ho
  | cons o2 os ih =>
    show lookupMeta (set_metadata (upsertMetaRow t o2 n v) os n v) o n = some v
    rcases List.mem_cons.mp ho with rfl | hmem
    · exact lookup_set_metadata_of_eq os _ o n v (lookup_upsert_same t o n v)
    · exact ih _ hmem

/-- A `set_metadata` pass preserves the primary-key invariant. -/
theorem metaKeyNodup_set_metadata (owners : List Uuid) (t : List MetaRow)
    (n v : String) (hnd : metaKeyNodup t) :
    metaKeyNodup (set_metadata t owners n v) := by
  induction owners generalizing t with
  | nil => exact hnd
  | cons o2 os ih =>
    exact ih _ (metaKeyNodup_upsert t o2 n v hnd)

/-- A row outside an upsert's key survives the upsert. -/
theorem mem_upsert_of_other (t : List MetaRow) (r : MetaRow) (o : Uuid)
    (n v : String) (hr : r ∈ t) (hk : metaKeyIs o n r = false) :
    r ∈ upsertMetaRow t o n v := by
  unfold upsertMetaRow
  by_cases h : t.any (metaKeyIs o n)
  · rw [if_pos h]
    apply List.mem_map.mpr
    exact ⟨r, hr, by rw [hk]; rfl⟩
  · rw [if_neg h]
    exact List.mem_append_left _ hr

/-- A row whose owner is outside the pass, or whose name differs, survives a
whole `set_metadata` pass. -/
theorem mem_set_metadata_of_unscoped (owners : List Uuid) (t : List MetaRow)
    (r : MetaRow) (n v : String) (hr : r ∈ t)
    (hsc : r.owner_id ∉ owners ∨ r.name ≠ n) :
    r ∈ set_metadata t owners n v := by
  induction owners generalizing t with
  | nil => exact hr
  | cons o2 os ih =>
    show r ∈ set_metadata (upsertMetaRow t o2 n v) os n v
    have hk : metaKeyIs o2 n r = false := by
      rcases hcon : metaKeyIs o2 n r with _ | _
      · rfl
      · exfalso
        have hand := (Bool.and_eq_true _ _).mp hcon
        rcases hsc with hown | hname
        · exact hown (by rw [eq_of_beq hand.1]; exact List.mem_cons_self _ _)
        · exact hname (eq_of_beq hand.2)
    apply ih
    · exact mem_upsert_of_other t r o2 n v hr hk
    · rcases hsc with hown | hname
      · exact Or.inl fun hmem => hown (List.mem_cons_of_mem _ hmem)
      · exact Or.inr hname

/-- C7: setting metadata `name` to `v1` then `v2` over the owner ids produced
by a query performs an upsert keyed on (`owner_id`, `name`): afterwards the
primary-key invariant still holds (no duplicate (owner, name) entries),
getting that name yields `(o, v2)` for every owner `o` matched by the query,
every entry returned for those owners carries `v2`, and rows outside the
query's owners (or under another name) are untouched. -/
theorem c7_metadata_upsert (tbl : List MetaRow) (owners : List Uuid)
    (n v1 v2 : String) (hnd : metaKeyNodup tbl) :
    metaKeyNodup (set_metadata (set_metadata tbl owners n v1) owners n v2)
    ∧ (∀ o ∈ owners,
        (o, v2) ∈ get_metadata (set_metadata (set_metadata tbl owners n v1) owners n v2)
          owners n)
    ∧ (∀ p ∈ get_metadata (set_metadata (set_metadata tbl owners n v1) owners n v2)
          owners n, p.2 = v2)
    ∧ (∀ r ∈ tbl, r.owner_id ∉ owners ∨ r.name ≠ n →
        r ∈ set_metadata (set_metadata tbl owners n v1) owners n v2) := by
  have hnd2 : metaKeyNodup (set_metadata (set_metadata tbl owners n v1) owners n v2) :=
    metaKeyNodup_set_metadata owners _ n v2
      (metaKeyNodup_set_metadata owners tbl n v1 hnd)
  refine ⟨hnd2, ?_, ?_, ?_⟩
  · intro o ho
    have hlk := lookup_set_metadata_mem owners (set_metadata tbl owners n v1) o n v2 ho
    unfold lookupMeta at hlk
    cases hf : (set_metadata (set_metadata tbl owners n v1) owners n v2).find?
        (metaKeyIs o n) with
    | none => rw [hf] at hlk; cases hlk
    | some r0 =>
      rw [hf] at hlk
      have hval : r0.value = v2 := by simpa using hlk
      have hmem : r0 ∈ set_metadata (set_metadata tbl owners n v1) owners n v2 :=
        List.mem_of_find?_eq_some hf
      have hpr := List.find?_some hf
      have hand := (Bool.and_eq_true _ _).mp hpr
      have ho1 : r0.owner_id = o := eq_of_beq hand.1
      have ho2 : r0.name = n := eq_of_beq hand.2
      unfold get_metadata
      apply List.mem_map.mpr
      refine ⟨r0, ?_, by rw [ho1, hval]⟩
      apply List.mem_filter.mpr
      refine ⟨hmem, ?_⟩
      rw [ho1, ho2]
      simp only [Bool.and_eq_true, beq_self_eq_true, and_true]
      exact (List.elem_iff).mpr ho
  · intro p hp
    unfold get_metadata at hp
    obtain ⟨r, hrf, hrp⟩ := List.mem_map.mp hp
    have hrm := List.mem_filter.mp hrf
    have hand := (Bool.and_eq_true _ _).mp hrm.2
    have hown : r.owner_id ∈ owners := by
      have := hand.1
      exact (List.elem_iff).mp this
    have hname : r.name = n := eq_of_beq hand.2
    have hlk := lookup_set_metadata_mem owners (set_metadata tbl owners n v1)
      r.owner_id n v2 hown
    have hlk2 := lookup_of_mem_nodup _ r hnd2 hrm.1
    rw [hname] at hlk2
    rw [hlk] at hlk2
    have hval : v2 = r.value := by simpa using hlk2
    rw [← hrp]
    exact hval.symm
  · intro r hr hsc
    exact mem_set_metadata_of_unscoped owners _ r n v2
      (mem_set_metadata_of_unscoped owners tbl r n v1 hr hsc) hsc

/-- Concrete instantiation of the metadata-upsert theorem: one owner, two
writes. -/
theorem c7_metadata_upsert_witness :
    metaKeyNodup [MetaRow.mk 7 "other" "x"]
    ∧ (metaKeyNodup (set_metadata (set_metadata [MetaRow.mk 7 "other" "x"] [1] "score" "7")
          [1] "score" "42")
      ∧ (∀ o ∈ [(1 : Uuid)],
          (o, "42") ∈ get_metadata (set_metadata (set_metadata [MetaRow.mk 7 "other" "x"]
            [1] "score" "7") [1] "score" "42") [1] "score")
      ∧ (∀ p ∈ get_metadata (set_metadata (set_metadata [MetaRow.mk 7 "other" "x"]
            [1] "score" "7") [1] "score" "42") [1] "score", p.2 = "42")
      ∧ (∀ r ∈ [MetaRow.mk 7 "other" "x"], r.owner_id ∉ [(1 : Uuid)] ∨ r.name ≠ "score" →
          r ∈ set_metadata (set_metadata [MetaRow.mk 7 "other" "x"] [1] "score" "7")
            [1] "score" "42")) :=
  ⟨by unfold metaKeyNodup; decide,
    c7_metadata_upsert [MetaRow.mk 7 "other" "x"] [1] "score" "7" "42"
      (by unfold metaKeyNodup; decide)⟩

end IndraPg
